import Mathlib

/-!
Verification development for the interface-renaming program
`systemd_persistent_eth.py`.

Shallow embedding conventions:
* Python strings are modelled as `List Char` (`Str`); `str.upper` and
  `str.lower` act per character (the program only handles ASCII data such
  as MAC addresses, file names and `KEY=VALUE` lines).
* `str.split(sep)` is `pySplit`, `str.strip()` is `pyStripWs`,
  `str.strip(c)` is `pyStripChar` — all written out recursively with
  Python semantics (splitting keeps empty pieces, stripping removes the
  given character from both ends).
* The decimal rendering used by the `%d` format is `natChars` (fuel-based
  so that the kernel can evaluate it).
* The live link set is a list of interfaces in `ip link show` order
  (ifindex order, loopback excluded, as in `get_interface_dict`).  The
  kernel keeps link names unique, so enumeration order is stable and the
  name-keyed Python dict preserves it; `get_interface_dict` models the
  dict build including the overwrite-on-duplicate-key behaviour.
* Each external `ip link set` invocation is recorded as a `Cmd`.  The
  program never inspects the exit status of these commands, so a failed
  command is a silent no-op on the state.  `ip link set dev OLD name NEW`
  fails (no state change) when another interface already holds `NEW`;
  otherwise it renames the interface named `OLD`.  The up/down flag is
  not part of the state because the algorithm never reads it; the carrier
  state of a single device is recovered from the command trace by
  `trackUp`.
-/

namespace SPE

abbrev Str := List Char

/-- Embedding of Python `str.upper()` (ASCII data). -/
def pyUpper (s : Str) : Str := s.map Char.toUpper

/-- Embedding of Python `str.lower()` (ASCII data). -/
def pyLower (s : Str) : Str := s.map Char.toLower

/-- Embedding of Python `str.strip()`: drop whitespace from both ends. -/
def pyStripWs (s : Str) : Str :=
  ((s.dropWhile Char.isWhitespace).reverse.dropWhile Char.isWhitespace).reverse

/-- Embedding of Python `str.strip(c)` for a single character `c`. -/
def pyStripChar (c : Char) (s : Str) : Str :=
  ((s.dropWhile (· == c)).reverse.dropWhile (· == c)).reverse

/-- Embedding of Python `str.split(sep)` for a one-character separator:
splits at every occurrence and keeps empty pieces. -/
def pySplit (sep : Char) : Str → List Str
  | [] => [[]]
  | c :: rest =>
    if c = sep then [] :: pySplit sep rest
    else
      match pySplit sep rest with
      | [] => [[c]]
      | s :: ss => (c :: s) :: ss

/-- Decimal digits of a natural number, most significant first; the fuel
argument makes the recursion structural so the kernel can evaluate it.
`natCharsAux (n+1) n` renders `n` the way the `%d` format does. -/
def natCharsAux : Nat → Nat → Str
  | 0, _ => []
  | fuel + 1, n =>
    if n < 10 then [Nat.digitChar n]
    else natCharsAux fuel (n / 10) ++ [Nat.digitChar (n % 10)]

/-- Decimal rendering of a natural number (the `%d` format). -/
def natChars (n : Nat) : Str := natCharsAux (n + 1) n

/-- Reads a decimal digit string back into a number (proof device for the
injectivity of `natChars`). -/
def charsVal (s : Str) : Nat := s.foldl (fun a c => a * 10 + (c.toNat - 48)) 0

theorem charsVal_append_digit (xs : Str) (c : Char) :
    charsVal (xs ++ [c]) = charsVal xs * 10 + (c.toNat - 48) := by
  simp [charsVal, List.foldl_append]

theorem digitChar_val : ∀ m, m < 10 → (Nat.digitChar m).toNat - 48 = m := by decide

theorem charsVal_natCharsAux : ∀ fuel n, n < fuel → charsVal (natCharsAux fuel n) = n := by
  intro fuel
  induction fuel with
  | zero => intro n hn; omega
  | succ f ih =>
    intro n hn
    by_cases h : n < 10
    · simp [natCharsAux, h, charsVal, digitChar_val n h]
    · have h10 : 10 ≤ n := Nat.le_of_not_lt h
      have hdiv : n / 10 < f := by
        have h1 : n / 10 < n := Nat.div_lt_self (by omega) (by omega)
        omega
      simp only [natCharsAux, if_neg h]
      rw [charsVal_append_digit, ih _ hdiv, digitChar_val _ (Nat.mod_lt _ (by omega))]
      omega

theorem charsVal_natChars (n : Nat) : charsVal (natChars n) = n :=
  charsVal_natCharsAux _ _ (Nat.lt_succ_self n)

theorem natChars_injective : Function.Injective natChars := by
  intro a b h
  have := charsVal_natChars a
  rw [h, charsVal_natChars] at this
  omega

/-- The temporary name `temp%d` used by phase 1. -/
def tempName (n : Nat) : Str := 't' :: 'e' :: 'm' :: 'p' :: natChars n

/-- The fallback name `eth%d` used by phase 3. -/
def ethName (n : Nat) : Str := 'e' :: 't' :: 'h' :: natChars n

theorem tempName_injective : Function.Injective tempName := by
  intro a b h
  simp only [tempName, List.cons.injEq, true_and] at h
  exact natChars_injective h

theorem ethName_injective : Function.Injective ethName := by
  intro a b h
  simp only [ethName, List.cons.injEq, true_and] at h
  exact natChars_injective h

theorem ethName_ne_tempName (a b : Nat) : ethName a ≠ tempName b := by
  intro h
  simp [ethName, tempName] at h

/-- `startsWith needle hay`: `needle` is an initial segment of `hay`. -/
def startsWith : Str → Str → Bool
  | [], _ => true
  | _ :: _, [] => false
  | a :: as, b :: bs => a == b && startsWith as bs

/-- Embedding of the Python substring test `needle in hay`. -/
def pyIn (needle : Str) : Str → Bool
  | [] => needle.isEmpty
  | c :: rest => startsWith needle (c :: rest) || pyIn needle rest

/-- One network interface as observed by `get_interface_dict`: the source
stores the tuple `(hwaddr, connection, interface)`; `mac` is field 0
(already uppercased by the source) and `name` is field 2.  Field 1 (the
carrier flag) is only printed, never read by the algorithm, so it is not
part of the state; the carrier state of a device is recovered from the
command trace by `trackUp`. -/
structure Iface where
  name : Str
  mac : Str
deriving DecidableEq, Repr

/-- The live link set in `ip link show` (ifindex) order, loopback
excluded.  The kernel keeps the `name` fields pairwise distinct. -/
abbrev NetState := List Iface

/-- One external `ip link set` invocation. -/
inductive Cmd where
  | down (dev : Str)
  | rename (dev target : Str)
  | up (dev : Str)
deriving DecidableEq, Repr

/-- Semantics of `ip link set dev OLD name NEW`: the command fails (and
the program ignores the failure, so the state is unchanged) when another
interface already holds `NEW`; otherwise the interface named `OLD` is
renamed. -/
def setLinkName (s : NetState) (old new : Str) : NetState :=
  if s.any (fun i => i.name == new && i.name != old) then s
  else s.map (fun i => if i.name == old then { i with name := new } else i)

/-- Effect of one command on the link set: up/down do not change names or
MAC addresses, and the up/down flag is not part of the modelled state. -/
def execCmd (s : NetState) : Cmd → NetState
  | .down _ => s
  | .up _ => s
  | .rename old new => setLinkName s old new

def execCmds (s : NetState) : List Cmd → NetState
  | [] => s
  | c :: cs => execCmds (execCmd s c) cs

/-- Follows one device through a command trace: its current name and
carrier (up/down) state, assuming the commands addressing it succeed. -/
def trackUp : Str → Bool → List Cmd → Str × Bool
  | n, u, [] => (n, u)
  | n, u, .down m :: cs => trackUp n (if m == n then false else u) cs
  | n, u, .up m :: cs => trackUp n (if m == n then true else u) cs
  | n, u, .rename o t :: cs => trackUp (if o == n then t else n) u cs

/-- The names currently held, in ifindex order. -/
def names (s : NetState) : List Str := s.map Iface.name

/-- The MAC addresses, in ifindex order (stable across renames). -/
def macs (s : NetState) : List Str := s.map Iface.mac

/-- Destination names of the rename commands in a trace. -/
def renameTargets (cmds : List Cmd) : List Str :=
  cmds.filterMap fun c => match c with
    | .rename _ t => some t
    | _ => none

/-- The source and destination of each rename command in a trace. -/
def renamesOf (cmds : List Cmd) : List (Str × Str) :=
  cmds.filterMap fun c => match c with
    | .rename o t => some (o, t)
    | _ => none

theorem execCmds_append (s : NetState) (c1 c2 : List Cmd) :
    execCmds s (c1 ++ c2) = execCmds (execCmds s c1) c2 := by
  induction c1 generalizing s with
  | nil => rfl
  | cons c cs ih => simp [execCmds, ih]

theorem names_setLinkName (s : NetState) (old new : Str) :
    names (setLinkName s old new) =
      if s.any (fun i => i.name == new && i.name != old) then names s
      else (names s).map (fun n => if n == old then new else n) := by
  unfold setLinkName
  split
  · rfl
  · simp only [names, List.map_map]
    apply List.map_congr_left
    intro i _
    by_cases h : i.name = old <;> simp [h]

theorem macs_setLinkName (s : NetState) (old new : Str) :
    macs (setLinkName s old new) = macs s := by
  unfold setLinkName
  split
  · rfl
  · simp only [macs, List.map_map]
    apply List.map_congr_left
    intro i _
    by_cases h : i.name = old <;> simp [h]

theorem macs_execCmds (s : NetState) (cmds : List Cmd) :
    macs (execCmds s cmds) = macs s := by
  induction cmds generalizing s with
  | nil => rfl
  | cons c cs ih =>
    cases c with
    | down d => simpa [execCmds, execCmd] using ih s
    | up d => simpa [execCmds, execCmd] using ih s
    | rename o t =>
      simp [execCmds, execCmd, ih, macs_setLinkName]

theorem length_execCmds (s : NetState) (cmds : List Cmd) :
    (execCmds s cmds).length = s.length := by
  have h := macs_execCmds s cmds
  have h1 : (macs (execCmds s cmds)).length = (macs s).length := by rw [h]
  simpa [macs] using h1

/-- A successful or failed rename keeps link names pairwise distinct. -/
theorem nodup_setLinkName (s : NetState) (old new : Str)
    (h : (names s).Nodup) : (names (setLinkName s old new)).Nodup := by
  rw [names_setLinkName]
  split
  · exact h
  · rename_i hguard
    have hguard' : ∀ i ∈ s, ¬(i.name = new ∧ i.name ≠ old) := by
      intro i hi hcon
      have : s.any (fun i => i.name == new && i.name != old) = true :=
        List.any_eq_true.mpr
          ⟨i, hi, by rw [Bool.and_eq_true, beq_iff_eq, bne_iff_ne]; exact hcon⟩
      simp [this] at hguard
    apply List.Nodup.map_on _ h
    intro x hx y hy hxy
    have hx' : ∀ i ∈ s, i.name = x → ¬(x = new ∧ x ≠ old) := by
      intro i hi hni
      subst hni
      exact hguard' i hi
    by_cases h1 : x = old <;> by_cases h2 : y = old
    · rw [h1, h2]
    · -- x = old, y ≠ old : lhs is new, so y = new; but then y must equal old
      rw [if_pos (by simp [h1]), if_neg (by simp [h2])] at hxy
      obtain ⟨i, hi, hni⟩ := List.mem_map.mp hy
      exfalso
      exact hguard' i hi ⟨by rw [hni, ← hxy], by rw [hni]; exact h2⟩
    · rw [if_neg (by simp [h1]), if_pos (by simp [h2])] at hxy
      obtain ⟨i, hi, hni⟩ := List.mem_map.mp hx
      exfalso
      exact hguard' i hi ⟨by rw [hni, hxy], by rw [hni]; exact h1⟩
    · rwa [if_neg (by simp [h1]), if_neg (by simp [h2])] at hxy

theorem nodup_execCmd (s : NetState) (c : Cmd)
    (h : (names s).Nodup) : (names (execCmd s c)).Nodup := by
  cases c with
  | down d => exact h
  | up d => exact h
  | rename o t => exact nodup_setLinkName s o t h

theorem nodup_execCmds (s : NetState) (cmds : List Cmd)
    (h : (names s).Nodup) : (names (execCmds s cmds)).Nodup := by
  induction cmds generalizing s with
  | nil => exact h
  | cons c cs ih => exact ih _ (nodup_execCmd s c h)

/-- A parsed configuration file: upper-cased KEY/VALUE pairs. -/
abbrev Cfg := List (Str × Str)

/-- The parsed catalog: file path to parsed pairs, in load order. -/
abbrev Cfgs := List (Str × Cfg)

/-- Python dict assignment `d[k] = v`: overwrite the value in place if the
key exists, else append (insertion order preserved). -/
def dictInsertStr (acc : Cfg) (k v : Str) : Cfg :=
  if acc.any (fun p => p.1 == k) then
    acc.map (fun p => if p.1 == k then (p.1, v) else p)
  else acc ++ [(k, v)]

/-- Python dict lookup returning an option (`k in d` plus `d[k]`). -/
def dictGet (d : Cfg) (k : Str) : Option Str :=
  (d.find? (fun p => p.1 == k)).map (fun p => p.2)

/-- Embedding of `get_interface_dict` (source lines 126 to 143): the raw
link report arrives in ifindex order; each entry is stored in a dict
keyed by the interface name, so a duplicate name would overwrite the
earlier entry in place.  The kernel keeps names unique, in which case
this is the identity (proved below). -/
def get_interface_dict (s : NetState) : List Iface :=
  s.foldl
    (fun acc i =>
      if acc.any (fun j => j.name == i.name) then
        acc.map (fun j => if j.name == i.name then i else j)
      else acc ++ [i])
    []

/-- Embedding of `link_name_change` (source lines 145 to 162): bring the
device down, rename it to `temp%d % idx` when `dest` is falsy (absent or
the empty string), else to `dest`, then issue `up` on `temp%d % idx` —
the source interpolates `idx` into the up command even when `dest` was
given.  Returns the new state and the issued commands. -/
def link_name_change (idx : Nat) (entry : Str) (dest : Option Str)
    (s : NetState) : NetState × List Cmd :=
  let target :=
    match dest with
    | none => tempName idx
    | some d => if d.isEmpty then tempName idx else d
  (setLinkName s entry target,
    [Cmd.down entry, Cmd.rename entry target, Cmd.up (tempName idx)])

/-- Embedding of `get_config_files` (source lines 164 to 177): walk the
globbed file list (`ifcfg-eth*`) in order, skip entries whose path
contains a colon (VLAN definitions), and read each remaining file.  A
file that cannot be opened (`none` content) raises an uncaught IOError,
modelled as an error carrying the path. -/
def get_config_files : List (Str × Option Str) → Except Str (List (Str × Str))
  | [] => .ok []
  | (path, content) :: rest =>
    if path.contains ':' then get_config_files rest
    else
      match content with
      | none => .error path
      | some text =>
        match get_config_files rest with
        | .ok files => .ok ((path, text) :: files)
        | .error e => .error e

/-- Embedding of `parse_config` (source lines 179 to 187): split the text
into lines, split each line on `=`, and for lines with at least two
pieces store `piece0.upper().strip() -> piece1.upper().strip()`;
everything after a second `=` is discarded, and lines without `=`
contribute nothing. -/
def parse_config (text : Str) : Cfg :=
  (pySplit '\n' text).foldl
    (fun acc line =>
      match pySplit '=' line with
      | k :: v :: _ => dictInsertStr acc (pyStripWs (pyUpper k)) (pyStripWs (pyUpper v))
      | _ => acc)
    []

/-- Embedding of `get_config` (source lines 189 to 197): parse every
cached file, keeping the file order. -/
def get_config (dir : List (Str × Option Str)) : Except Str Cfgs :=
  match get_config_files dir with
  | .ok files => .ok (files.map (fun p => (p.1, parse_config p.2)))
  | .error e => .error e

/-- Embedding of `assign_interface` (source lines 199 to 211): for every
record in catalog order, look up `HWADDR` (a missing key raises an
uncaught KeyError), strip double quotes, and test it as a substring of
the interface MAC; on a match rename the interface (by its snapshot
name) to the lowercased, double-quote-stripped `DEVICE` (else `NAME`)
value, counting the match; a record with neither key renames nothing.
Returns the match count, the new state and the issued commands. -/
def assign_interface (interface : Iface) :
    Cfgs → NetState → Except Str (Nat × NetState × List Cmd)
  | [], s => .ok (0, s, [])
  | (_, cfg) :: rest, s =>
    match dictGet cfg "HWADDR".data with
    | none => .error "KeyError: HWADDR".data
    | some hw =>
      if pyIn (pyStripChar '"' hw) interface.mac then
        match dictGet cfg "DEVICE".data with
        | some d =>
          let r1 := link_name_change 0 interface.name
            (some (pyStripChar '"' (pyLower d))) s
          match assign_interface interface rest r1.1 with
          | .ok (n, s2, cs2) => .ok (n + 1, s2, r1.2 ++ cs2)
          | .error e => .error e
        | none =>
          match dictGet cfg "NAME".data with
          | some nm =>
            let r1 := link_name_change 0 interface.name
              (some (pyStripChar '"' (pyLower nm))) s
            match assign_interface interface rest r1.1 with
            | .ok (n, s2, cs2) => .ok (n + 1, s2, r1.2 ++ cs2)
            | .error e => .error e
          | none => assign_interface interface rest s
      else assign_interface interface rest s

/-- Phase 1 (source lines 216 to 218): rename each enumerated interface,
in enumeration order, to its positional temp name.  The name list is the
snapshot taken before any rename. -/
def phase1 (idx : Nat) : List Str → NetState → NetState × List Cmd
  | [], s => (s, [])
  | n :: rest, s =>
    let r1 := link_name_change idx n none s
    let r2 := phase1 (idx + 1) rest r1.1
    (r2.1, r1.2 ++ r2.2)

/-- Phase 2 (source lines 227 to 228): run `assign_interface` for every
snapshot interface; the loop variable `success` is overwritten each
iteration, so the returned count is the one of the last interface
(`none` when there was no interface, in which case `success` is unbound
and line 230 raises a NameError). -/
def phase2 : List Iface → Cfgs → NetState →
    Except Str (Option Nat × NetState × List Cmd)
  | [], _, s => .ok (none, s, [])
  | interface :: rest, configs, s =>
    match assign_interface interface configs s with
    | .error e => .error e
    | .ok (n, s1, cs) =>
      match phase2 rest configs s1 with
      | .error e => .error e
      | .ok (last, s2, cs2) => .ok (some (last.getD n), s2, cs ++ cs2)

/-- The `while tempname in interfaces.keys()` loop of phase 3 (source
lines 240 to 242): advance `idx` past every `eth%d` name present in the
snapshot.  The fuel (always instantiated with `taken.length + 1`) makes
the recursion structural; that much fuel always suffices (proved below). -/
def bumpIdx (taken : List Str) : Nat → Nat → Nat
  | 0, idx => idx
  | fuel + 1, idx =>
    if taken.contains (ethName idx) then bumpIdx taken fuel (idx + 1) else idx

/-- Phase 3 body (source lines 236 to 245): walk the snapshot in order;
an interface whose name contains `eth` is untouched, any other is
renamed to `eth%d` for the first index at or above the running counter
whose name is not in the snapshot key set, and the counter continues
past it for later interfaces. -/
def phase3go (taken : List Str) : List Iface → Nat → NetState → NetState × List Cmd
  | [], _, s => (s, [])
  | interface :: rest, idx, s =>
    if pyIn "eth".data interface.name then phase3go taken rest idx s
    else
      let j := bumpIdx taken (taken.length + 1) idx
      let r1 := link_name_change 0 interface.name (some (ethName j)) s
      let r2 := phase3go taken rest (j + 1) r1.1
      (r2.1, r1.2 ++ r2.2)

/-- Phase 3 (source lines 234 to 245), starting from counter 0. -/
def phase3 (taken : List Str) (interfaces : List Iface) (s : NetState) :
    NetState × List Cmd :=
  phase3go taken interfaces 0 s

/-- The run from line 221 of the source onward: re-enumerate, load the
catalog, run phase 2, compute `unnamed = len(interfaces) - success`
(line 230, an `int` that the truthiness test compares with 0), re-
enumerate, and run phase 3 when `unnamed` is non-zero. -/
def mainRest (dir : List (Str × Option Str)) (s1 : NetState) :
    Except Str (NetState × List Cmd) :=
  match get_config dir with
  | .error e => .error e
  | .ok configs =>
    let itfs2 := get_interface_dict s1
    match phase2 itfs2 configs s1 with
    | .error e => .error e
    | .ok (succ, s2, tr2) =>
      match succ with
      | none => .error "NameError: success".data
      | some success =>
        let unnamed : Int := (itfs2.length : Int) - (success : Int)
        let itfs3 := get_interface_dict s2
        if unnamed = 0 then .ok (s2, tr2)
        else
          let r3 := phase3 (names itfs3) itfs3 s2
          .ok (r3.1, tr2 ++ r3.2)

/-- Embedding of `main` (source lines 213 to 248): enumerate, run phase 1
over the snapshot names, then the rest of the pipeline.  The final
enumeration at line 248 is diagnostic only and not modelled.  Returns
the final state and the full command trace. -/
def main (dir : List (Str × Option Str)) (s0 : NetState) :
    Except Str (NetState × List Cmd) :=
  let itfs1 := get_interface_dict s0
  let r1 := phase1 0 (names itfs1) s0
  match mainRest dir r1.1 with
  | .ok r => .ok (r.1, r1.2 ++ r.2)
  | .error e => .error e

/-- Whether a command is a rename whose destination is already held by a
different interface in the given state (such a rename fails). -/
def collidesAt (s : NetState) : Cmd → Bool
  | .rename old new => s.any (fun i => i.name == new && i.name != old)
  | _ => false

/-- Whether replaying a trace from a state ever issues a rename whose
destination is already held by another interface. -/
def anyCollision (s : NetState) : List Cmd → Bool
  | [] => false
  | c :: cs => collidesAt s c || anyCollision (execCmd s c) cs

/-- The destination a record would be renamed to, as computed by
`assign_interface` together with the falsy-destination fallback inside
`link_name_change`: lowercase, double quotes stripped, and `temp0` when
that leaves the empty string. -/
def normTarget (v : Str) : Str :=
  let t := pyStripChar '"' (pyLower v)
  if t.isEmpty then tempName 0 else t

/-- The rename destination of one parsed record (`DEVICE` preferred,
else `NAME`), if any. -/
def recordTarget (cfg : Cfg) : Option Str :=
  match dictGet cfg "DEVICE".data with
  | some d => some (normTarget d)
  | none =>
    match dictGet cfg "NAME".data with
    | some nm => some (normTarget nm)
    | none => none

/-- Every rename destination phase 2 can produce from a catalog. -/
def configTargets (configs : Cfgs) : List Str :=
  configs.filterMap (fun p => recordTarget p.2)

/-- Modelled from the spec: the accumulated `matchedCount` over all
interfaces of phase 2 — the spec reports `unnamed = totalInterfaces −
matchedCount`, with `matchedCount` summed over the whole pass, whereas
the source overwrites `success` each iteration.  This definition is the
summing variant, used to exhibit the divergence. -/
def phase2_accum : List Iface → Cfgs → NetState → Except Str (Nat × NetState)
  | [], _, s => .ok (0, s)
  | interface :: rest, configs, s =>
    match assign_interface interface configs s with
    | .error e => .error e
    | .ok (n, s1, _) =>
      match phase2_accum rest configs s1 with
      | .error e => .error e
      | .ok (m, s2) => .ok (n + m, s2)

/-- The fallback-naming specification, following the wording of the spec:
walking the snapshot in order with the set `asg` of already assigned
fallback indices, an interface whose name contains `eth` is untouched,
and any other is renamed to `eth<N>` for the smallest `N` such that
`eth<N>` is held by no snapshot interface and `N` was not assigned to an
earlier fallback interface of the same phase.  The third argument lists
the performed renames as (old name, new name) pairs. -/
inductive FallbackSpec (taken : List Str) : List Nat → List Iface → List (Str × Str) → Prop
  | nil (asg : List Nat) : FallbackSpec taken asg [] []
  | keep (asg : List Nat) (i : Iface) (rest : List Iface) (out : List (Str × Str)) :
      pyIn "eth".data i.name = true →
      FallbackSpec taken asg rest out →
      FallbackSpec taken asg (i :: rest) out
  | put (asg : List Nat) (i : Iface) (rest : List Iface) (out : List (Str × Str)) (N : Nat) :
      pyIn "eth".data i.name = false →
      ethName N ∉ taken →
      N ∉ asg →
      (∀ M, M < N → ethName M ∈ taken ∨ M ∈ asg) →
      FallbackSpec taken (N :: asg) rest out →
      FallbackSpec taken asg (i :: rest) ((i.name, ethName N) :: out)

/-- Position compatibility with the temp namespace: an interface may only
carry a `temp<j>` name when `j` is its own position (offset by `idx`).
Phase 1 moves such a state to the canonical all-temp state. -/
def TempCompat : Nat → NetState → Prop
  | _, [] => True
  | idx, i :: rest => (∀ j, i.name = tempName j → j = idx) ∧ TempCompat (idx + 1) rest

/-- The canonical state after a fully successful phase 1: interface at
position `p` (offset by `idx`) is named `temp<idx+p>`; MAC addresses and
order are unchanged. -/
def canonFrom : Nat → NetState → NetState
  | _, [] => []
  | idx, i :: rest => { i with name := tempName idx } :: canonFrom (idx + 1) rest

/-! ### Basic facts about the embedded primitives -/

theorem pyIn_nil (hay : Str) : pyIn [] hay = true := by
  cases hay <;> simp [pyIn, startsWith, List.isEmpty]

/-! ### C1 -/

/-- C1: the claim states that a rename with an explicit destination runs
down, rename, up-under-the-new-name, leaving the interface up.  The code
instead issues `up temp<idx>` (source line 159 interpolates `idx` even
when `dest` is given): on a device named `temp0` renamed to `eth5`, the
third command is `up temp0`, not `up eth5`, and following the device
through the trace leaves it named `eth5` but down. -/
theorem C1_up_targets_stale_temp :
    link_name_change 0 "temp0".data (some "eth5".data)
        [Iface.mk "temp0".data "AA".data] =
      ([Iface.mk "eth5".data "AA".data],
        [Cmd.down "temp0".data, Cmd.rename "temp0".data "eth5".data,
          Cmd.up "temp0".data]) ∧
    trackUp "temp0".data true
        [Cmd.down "temp0".data, Cmd.rename "temp0".data "eth5".data,
          Cmd.up "temp0".data] =
      ("eth5".data, false) :=
  ⟨rfl, rfl⟩

/-! ### C2 -/

/-- C2: the claim states that the reported unnamed count is the total
number of interfaces minus the matches accumulated over all interfaces.
The code overwrites `success` each iteration (source line 228), so with
two interfaces of which only the first matches the single record, the
code reports the last count 0 (hence `unnamed = 2`), while the
accumulated count is 1 (the claim would report `unnamed = 1`). -/
theorem C2_success_overwritten :
    (phase2
        [Iface.mk (tempName 0) "AA".data, Iface.mk (tempName 1) "BB".data]
        [("f1".data, [("HWADDR".data, "AA".data), ("DEVICE".data, "ETH0".data)])]
        [Iface.mk (tempName 0) "AA".data, Iface.mk (tempName 1) "BB".data]).map
      (fun r => r.1) = .ok (some 0) ∧
    (phase2_accum
        [Iface.mk (tempName 0) "AA".data, Iface.mk (tempName 1) "BB".data]
        [("f1".data, [("HWADDR".data, "AA".data), ("DEVICE".data, "ETH0".data)])]
        [Iface.mk (tempName 0) "AA".data, Iface.mk (tempName 1) "BB".data]).map
      (fun r => r.1) = .ok 1 :=
  ⟨rfl, rfl⟩

/-! ### C4 -/

/-- C4 counterexample: the claim states that a record without `HWADDR` is
inert and raises no error; the code looks `HWADDR` up unguarded (source
line 203), so processing such a record raises a KeyError, aborting the
pass. -/
theorem C4_counterexample :
    assign_interface (Iface.mk (tempName 0) "AA".data)
        [("f".data, [("DEVICE".data, "ETH0".data)])]
        [Iface.mk (tempName 0) "AA".data] =
      .error "KeyError: HWADDR".data :=
  rfl

/-- C4 amended: for every config record whose parsed key-value map lacks
an `HWADDR` key, processing that record during the match pass raises a
KeyError that aborts the pass (instead of the record being inert); no
rename is issued and no interface is matched. -/
theorem C4_missing_hwaddr_raises (interface : Iface) (path : Str) (cfg : Cfg)
    (rest : Cfgs) (s : NetState) (h : dictGet cfg "HWADDR".data = none) :
    assign_interface interface ((path, cfg) :: rest) s =
      .error "KeyError: HWADDR".data := by
  unfold assign_interface
  rw [h]

/-- C4 witness: the amended theorem applied to a concrete record that has
only a `DEVICE` key. -/
theorem C4_missing_hwaddr_raises_w :
    dictGet [("DEVICE".data, "ETH0".data)] "HWADDR".data = none ∧
    assign_interface (Iface.mk (tempName 0) "AA".data)
        [("f".data, [("DEVICE".data, "ETH0".data)])] [] =
      .error "KeyError: HWADDR".data :=
  ⟨rfl, C4_missing_hwaddr_raises (Iface.mk (tempName 0) "AA".data) "f".data
    [("DEVICE".data, "ETH0".data)] [] [] rfl⟩

/-! ### C5 -/

/-- C5 counterexample: the claim states that an unreadable config file is
skipped with a warning and the run continues; the code opens the file
unguarded (source line 173), so the IOError propagates and the whole run
aborts. -/
theorem C5_counterexample :
    get_config_files [("ifcfg-eth0".data, none)] = .error "ifcfg-eth0".data ∧
    main [("ifcfg-eth0".data, none)] [Iface.mk "a".data "AA".data] =
      .error "ifcfg-eth0".data :=
  ⟨rfl, rfl⟩

/-- C5 amended: when the first globbed non-VLAN file of the configuration
directory cannot be read, loading the catalog raises the error instead
of skipping the file, and the whole run aborts with that error (with the
interfaces already renamed to temp names by phase 1). -/
theorem C5_unreadable_file_aborts (path : Str) (rest : List (Str × Option Str))
    (s0 : NetState) (h : path.contains ':' = false) :
    get_config_files ((path, none) :: rest) = .error path ∧
    main ((path, none) :: rest) s0 = .error path := by
  have h1 : get_config_files ((path, none) :: rest) = .error path := by
    unfold get_config_files
    rw [h]
    simp
  refine ⟨h1, ?_⟩
  have h2 : get_config ((path, none) :: rest) = .error path := by
    unfold get_config
    rw [h1]
  unfold main mainRest
  rw [h2]

/-- C5 witness: the amended theorem at a concrete unreadable file. -/
theorem C5_unreadable_file_aborts_w :
    ("ifcfg-eth1".data.contains ':' = false) ∧
    (get_config_files [("ifcfg-eth1".data, none)] = .error "ifcfg-eth1".data ∧
      main [("ifcfg-eth1".data, none)] [Iface.mk "a".data "AA".data] =
        .error "ifcfg-eth1".data) :=
  ⟨rfl, C5_unreadable_file_aborts "ifcfg-eth1".data [] [Iface.mk "a".data "AA".data] rfl⟩

/-! ### C6 -/

/-- C6 counterexample: the claim states that a lowercase single-quoted
`HWADDR` value matches an interface reporting the uppercase MAC; the
code strips only double quotes (source line 203), so the single quotes
survive and the substring test fails: no match and no rename. -/
theorem C6_counterexample :
    (assign_interface (Iface.mk (tempName 0) "AA:BB:CC:DD:EE:FF".data)
        [("f".data, parse_config
          ("HWADDR=".data ++ [Char.ofNat 39] ++ "aa:bb:cc:dd:ee:ff".data ++
            [Char.ofNat 39] ++ "\nDEVICE=eth0".data))]
        [Iface.mk (tempName 0) "AA:BB:CC:DD:EE:FF".data]).map
      (fun r => (r.1, r.2.2)) = .ok (0, []) :=
  rfl

/-- C6 amended: case is normalized and double-quote characters are
stripped, so a record with `HWADDR="aa:bb:cc:dd:ee:ff"` (lowercase,
double-quoted) matches an interface reporting `AA:BB:CC:DD:EE:FF` and
renames it; surrounding single quotes are not stripped and prevent the
match. -/
theorem C6_double_quoted_lowercase_matches :
    (assign_interface (Iface.mk (tempName 0) "AA:BB:CC:DD:EE:FF".data)
        [("f".data, parse_config "HWADDR=\"aa:bb:cc:dd:ee:ff\"\nDEVICE=eth0".data)]
        [Iface.mk (tempName 0) "AA:BB:CC:DD:EE:FF".data]).map
      (fun r => (r.1, renamesOf r.2.2)) =
      .ok (1, [(tempName 0, "eth0".data)]) :=
  rfl

/-! ### C9 -/

/-- C9: a config record whose `HWADDR` value is empty after quote
stripping (here produced by the bare line `HWADDR=`) passes the
substring test against every MAC, so processing any interface against
it issues a rename of that interface to the record target. -/
theorem C9_empty_hwaddr_matches_all (interface : Iface) (s : NetState) :
    parse_config "HWADDR=\nDEVICE=eth7".data =
      [("HWADDR".data, ([] : Str)), ("DEVICE".data, "ETH7".data)] ∧
    assign_interface interface
        [("f".data, parse_config "HWADDR=\nDEVICE=eth7".data)] s =
      .ok (1, (link_name_change 0 interface.name (some "eth7".data) s).1,
        [Cmd.down interface.name, Cmd.rename interface.name "eth7".data,
          Cmd.up (tempName 0)]) := by
  obtain ⟨nm, mac⟩ := interface
  refine ⟨rfl, ?_⟩
  cases mac with
  | nil => rfl
  | cons c cs => rfl

/-! ### C10 -/

theorem pySplit_no_sep (sep : Char) (s : Str) (h : sep ∉ s) :
    pySplit sep s = [s] := by
  induction s with
  | nil => rfl
  | cons c rest ih =>
    have hc : ¬(c = sep) := fun hh => h (hh ▸ List.mem_cons_self c rest)
    have hr : sep ∉ rest := fun hh => h (List.mem_cons_of_mem c hh)
    simp [pySplit, hc, ih hr]

theorem pySplit_append_sep (sep : Char) (a r : Str) (h : sep ∉ a) :
    pySplit sep (a ++ sep :: r) = a :: pySplit sep r := by
  induction a with
  | nil => simp [pySplit]
  | cons c rest ih =>
    have hc : ¬(c = sep) := fun hh => h (hh ▸ List.mem_cons_self c rest)
    have hr : sep ∉ rest := fun hh => h (List.mem_cons_of_mem c hh)
    rw [List.cons_append]
    simp only [pySplit, if_neg hc]
    rw [ih hr]

/-- C10: parsing upper-cases (and whitespace-strips) both the key and the
stored value; on a line with two or more `=` characters only the text
between the first and the second `=` is stored as the value, the rest is
discarded; a plain `KEY=VALUE` line stores the text after the `=`; and a
line without `=` contributes nothing. -/
theorem C10_parse_line_shape (a b c : Str)
    (ha : '=' ∉ a) (hb : '=' ∉ b)
    (hna : '\n' ∉ a) (hnb : '\n' ∉ b) (hnc : '\n' ∉ c) :
    parse_config (a ++ '=' :: b ++ '=' :: c) =
      [(pyStripWs (pyUpper a), pyStripWs (pyUpper b))] ∧
    parse_config (a ++ '=' :: b) =
      [(pyStripWs (pyUpper a), pyStripWs (pyUpper b))] ∧
    parse_config a = [] := by
  have hne : ¬(('\n' : Char) = '=') := by decide
  refine ⟨?_, ?_, ?_⟩
  · have hline : '\n' ∉ a ++ '=' :: b ++ '=' :: c := by
      simp [List.mem_append, List.mem_cons, hna, hnb, hnc, hne]
    unfold parse_config
    rw [pySplit_no_sep _ _ hline]
    simp only [List.foldl]
    rw [show a ++ '=' :: b ++ '=' :: c = a ++ '=' :: (b ++ '=' :: c) by simp,
      pySplit_append_sep _ _ _ ha, pySplit_append_sep _ _ _ hb]
    simp [dictInsertStr]
  · have hline : '\n' ∉ a ++ '=' :: b := by
      simp [List.mem_append, List.mem_cons, hna, hnb, hne]
    unfold parse_config
    rw [pySplit_no_sep _ _ hline]
    simp only [List.foldl]
    rw [pySplit_append_sep _ _ _ ha, pySplit_no_sep _ _ hb]
    simp [dictInsertStr]
  · unfold parse_config
    rw [pySplit_no_sep _ _ hna]
    simp [pySplit_no_sep _ _ ha]

/-- C10 witness: the theorem applied to the line `device= eth0 =junk`,
together with the plain line and the line without `=`. -/
theorem C10_parse_line_shape_w :
    (('=' ∉ "device".data) ∧ ('=' ∉ " eth0 ".data) ∧
      ('\n' ∉ "device".data) ∧ ('\n' ∉ " eth0 ".data) ∧ ('\n' ∉ "=junk".data)) ∧
    (parse_config ("device".data ++ '=' :: " eth0 ".data ++ '=' :: "=junk".data) =
        [(pyStripWs (pyUpper "device".data), pyStripWs (pyUpper " eth0 ".data))] ∧
      parse_config ("device".data ++ '=' :: " eth0 ".data) =
        [(pyStripWs (pyUpper "device".data), pyStripWs (pyUpper " eth0 ".data))] ∧
      parse_config "device".data = []) :=
  ⟨⟨by decide, by decide, by decide, by decide, by decide⟩,
    C10_parse_line_shape "device".data " eth0 ".data "=junk".data
      (by decide) (by decide) (by decide) (by decide) (by decide)⟩

/-! ### C7 -/

theorem str_contains_iff (taken : List Str) (n : Str) :
    taken.contains n = true ↔ n ∈ taken :=
  List.elem_iff

theorem bumpIdx_ge (taken : List Str) :
    ∀ fuel idx, idx ≤ bumpIdx taken fuel idx := by
  intro fuel
  induction fuel with
  | zero => intro idx; exact Nat.le_refl idx
  | succ f ih =>
    intro idx
    unfold bumpIdx
    split
    · exact Nat.le_trans (Nat.le_succ idx) (ih (idx + 1))
    · exact Nat.le_refl idx

theorem bumpIdx_mid (taken : List Str) :
    ∀ fuel idx m, idx ≤ m → m < bumpIdx taken fuel idx → ethName m ∈ taken := by
  intro fuel
  induction fuel with
  | zero => intro idx m h1 h2; unfold bumpIdx at h2; omega
  | succ f ih =>
    intro idx m h1 h2
    unfold bumpIdx at h2
    by_cases hc : taken.contains (ethName idx) = true
    · rw [if_pos hc] at h2
      rcases Nat.eq_or_lt_of_le h1 with rfl | hlt
      · exact (str_contains_iff _ _).mp hc
      · exact ih (idx + 1) m hlt h2
    · rw [if_neg hc] at h2
      omega

theorem bumpIdx_free (taken : List Str) :
    ∀ fuel idx, (∃ j, idx ≤ j ∧ j < idx + fuel ∧ ethName j ∉ taken) →
      ethName (bumpIdx taken fuel idx) ∉ taken := by
  intro fuel
  induction fuel with
  | zero => intro idx ⟨j, h1, h2, _⟩; omega
  | succ f ih =>
    intro idx ⟨j, h1, h2, h3⟩
    unfold bumpIdx
    by_cases hc : taken.contains (ethName idx) = true
    · rw [if_pos hc]
      apply ih (idx + 1)
      refine ⟨j, ?_, by omega, h3⟩
      rcases Nat.eq_or_lt_of_le h1 with rfl | hlt
      · exact absurd ((str_contains_iff _ _).mp hc) h3
      · exact hlt
    · rw [if_neg hc]
      intro hmem
      exact hc ((str_contains_iff _ _).mpr hmem)

/-- Within `taken.length + 1` consecutive candidates one `eth<j>` name is
always free: the candidates are pairwise distinct, so they cannot all
occur in `taken`. -/
theorem exists_free_ethName (taken : List Str) (idx : Nat) :
    ∃ j, idx ≤ j ∧ j < idx + (taken.length + 1) ∧ ethName j ∉ taken := by
  by_contra hcon
  push_neg at hcon
  have hall : ∀ k, k < taken.length + 1 → ethName (idx + k) ∈ taken := by
    intro k hk
    exact hcon (idx + k) (Nat.le_add_right idx k) (by omega)
  have hnd : ((List.range (taken.length + 1)).map (fun k => ethName (idx + k))).Nodup := by
    apply List.Nodup.map _ (List.nodup_range _)
    intro k1 k2 hk
    have := ethName_injective hk
    omega
  have hsub : ((List.range (taken.length + 1)).map (fun k => ethName (idx + k))) ⊆ taken := by
    intro x hx
    obtain ⟨k, hk, rfl⟩ := List.mem_map.mp hx
    exact hall k (List.mem_range.mp hk)
  have hle := (List.subperm_of_subset hnd hsub).length_le
  simp at hle

theorem renamesOf_append (c1 c2 : List Cmd) :
    renamesOf (c1 ++ c2) = renamesOf c1 ++ renamesOf c2 := by
  simp [renamesOf, List.filterMap_append]

theorem ethName_isEmpty (n : Nat) : (ethName n).isEmpty = false := rfl

theorem phase3go_cons_keep (taken : List Str) (i : Iface) (rest : List Iface)
    (idx : Nat) (s : NetState) (he : pyIn "eth".data i.name = true) :
    phase3go taken (i :: rest) idx s = phase3go taken rest idx s := by
  simp only [phase3go]
  rw [if_pos he]

theorem phase3go_cons_put (taken : List Str) (i : Iface) (rest : List Iface)
    (idx : Nat) (s : NetState) (he : pyIn "eth".data i.name = false) :
    phase3go taken (i :: rest) idx s =
      ((phase3go taken rest (bumpIdx taken (taken.length + 1) idx + 1)
          (setLinkName s i.name (ethName (bumpIdx taken (taken.length + 1) idx)))).1,
        [Cmd.down i.name,
          Cmd.rename i.name (ethName (bumpIdx taken (taken.length + 1) idx)),
          Cmd.up (tempName 0)] ++
          (phase3go taken rest (bumpIdx taken (taken.length + 1) idx + 1)
            (setLinkName s i.name (ethName (bumpIdx taken (taken.length + 1) idx)))).2) := by
  simp only [phase3go]
  rw [if_neg (by rw [he]; exact Bool.false_ne_true)]
  rfl

theorem phase3go_spec (taken : List Str) :
    ∀ (itfs : List Iface) (idx : Nat) (asg : List Nat) (s : NetState),
      (∀ a ∈ asg, a < idx) →
      (∀ m, m < idx → ethName m ∈ taken ∨ m ∈ asg) →
      FallbackSpec taken asg itfs (renamesOf (phase3go taken itfs idx s).2) := by
  intro itfs
  induction itfs with
  | nil =>
    intro idx asg s _ _
    exact FallbackSpec.nil asg
  | cons i rest ih =>
    intro idx asg s hbound hcover
    by_cases he : pyIn "eth".data i.name = true
    · rw [phase3go_cons_keep taken i rest idx s he]
      exact FallbackSpec.keep asg i rest _ he (ih idx asg s hbound hcover)
    · have he' : pyIn "eth".data i.name = false := by
        cases hh : pyIn "eth".data i.name
        · rfl
        · exact absurd hh he
      have hj_ge := bumpIdx_ge taken (taken.length + 1) idx
      have hj_free : ethName (bumpIdx taken (taken.length + 1) idx) ∉ taken :=
        bumpIdx_free taken _ idx (exists_free_ethName taken idx)
      have hj_mid := bumpIdx_mid taken (taken.length + 1) idx
      rw [phase3go_cons_put taken i rest idx s he']
      set j := bumpIdx taken (taken.length + 1) idx with hj
      simp only [renamesOf_append]
      rw [show renamesOf [Cmd.down i.name, Cmd.rename i.name (ethName j),
          Cmd.up (tempName 0)] = [(i.name, ethName j)] from rfl]
      rw [List.singleton_append]
      apply FallbackSpec.put asg i rest _ j he' hj_free
      · intro hmem
        have := hbound j hmem
        omega
      · intro M hM
        by_cases hMi : M < idx
        · rcases hcover M hMi with h | h
          · exact Or.inl h
          · exact Or.inr h
        · exact Or.inl (hj_mid M (by omega) hM)
      · apply ih (j + 1) (j :: asg) _
        · intro a ha
          rcases List.mem_cons.mp ha with rfl | ha
          · omega
          · have := hbound a ha
            omega
        · intro m hm
          by_cases hmj : m = j
          · exact Or.inr (hmj ▸ List.mem_cons_self j asg)
          · by_cases hmi : m < idx
            · rcases hcover m hmi with h | h
              · exact Or.inl h
              · exact Or.inr (List.mem_cons_of_mem j h)
            · exact Or.inl (hj_mid m (by omega) (by omega))

/-- C7: in phase 3, every interface whose current name does not contain
`eth` is renamed to `eth<N>` where `N` is the smallest natural number,
starting at 0, such that `eth<N>` is held by no interface of the current
enumeration and was not assigned to an earlier fallback interface of the
same phase; interfaces whose name contains `eth` are untouched.  The
rename list of the phase 3 trace satisfies the fallback specification
for any snapshot and any start state. -/
theorem C7_fallback_least_free (taken : List Str) (itfs : List Iface) (s : NetState) :
    FallbackSpec taken [] itfs (renamesOf (phase3 taken itfs s).2) :=
  phase3go_spec taken itfs 0 [] s (by intro a ha; cases ha) (by intro m hm; omega)

/-! ### Equation lemmas for `assign_interface` -/

theorem assign_cons_hwaddr_none (interface : Iface) (path : Str) (cfg : Cfg)
    (rest : Cfgs) (s : NetState) (h : dictGet cfg "HWADDR".data = none) :
    assign_interface interface ((path, cfg) :: rest) s =
      .error "KeyError: HWADDR".data := by
  unfold assign_interface
  rw [h]

theorem assign_cons_nomatch (interface : Iface) (path : Str) (cfg : Cfg)
    (rest : Cfgs) (s : NetState) (hw : Str)
    (h1 : dictGet cfg "HWADDR".data = some hw)
    (h2 : pyIn (pyStripChar '"' hw) interface.mac = false) :
    assign_interface interface ((path, cfg) :: rest) s =
      assign_interface interface rest s := by
  simp only [assign_interface, h1]
  rw [if_neg (by rw [h2]; exact Bool.false_ne_true)]

theorem assign_cons_device (interface : Iface) (path : Str) (cfg : Cfg)
    (rest : Cfgs) (s : NetState) (hw d : Str)
    (h1 : dictGet cfg "HWADDR".data = some hw)
    (h2 : pyIn (pyStripChar '"' hw) interface.mac = true)
    (h3 : dictGet cfg "DEVICE".data = some d) :
    assign_interface interface ((path, cfg) :: rest) s =
      (match assign_interface interface rest
          (link_name_change 0 interface.name
            (some (pyStripChar '"' (pyLower d))) s).1 with
        | .ok (n, s2, cs2) =>
          .ok (n + 1, s2,
            (link_name_change 0 interface.name
              (some (pyStripChar '"' (pyLower d))) s).2 ++ cs2)
        | .error e => .error e) := by
  simp only [assign_interface, h1, h3]
  rw [if_pos h2]

theorem assign_cons_name (interface : Iface) (path : Str) (cfg : Cfg)
    (rest : Cfgs) (s : NetState) (hw nm : Str)
    (h1 : dictGet cfg "HWADDR".data = some hw)
    (h2 : pyIn (pyStripChar '"' hw) interface.mac = true)
    (h3 : dictGet cfg "DEVICE".data = none)
    (h4 : dictGet cfg "NAME".data = some nm) :
    assign_interface interface ((path, cfg) :: rest) s =
      (match assign_interface interface rest
          (link_name_change 0 interface.name
            (some (pyStripChar '"' (pyLower nm))) s).1 with
        | .ok (n, s2, cs2) =>
          .ok (n + 1, s2,
            (link_name_change 0 interface.name
              (some (pyStripChar '"' (pyLower nm))) s).2 ++ cs2)
        | .error e => .error e) := by
  simp only [assign_interface, h1, h3, h4]
  rw [if_pos h2]

theorem assign_cons_inert (interface : Iface) (path : Str) (cfg : Cfg)
    (rest : Cfgs) (s : NetState) (hw : Str)
    (h1 : dictGet cfg "HWADDR".data = some hw)
    (h2 : pyIn (pyStripChar '"' hw) interface.mac = true)
    (h3 : dictGet cfg "DEVICE".data = none)
    (h4 : dictGet cfg "NAME".data = none) :
    assign_interface interface ((path, cfg) :: rest) s =
      assign_interface interface rest s := by
  simp only [assign_interface, h1, h3, h4]
  rw [if_pos h2]

/-! ### Trace consistency: the returned state is the replay of the trace -/

theorem link_name_change_exec (idx : Nat) (entry : Str) (dest : Option Str)
    (s : NetState) :
    execCmds s (link_name_change idx entry dest s).2 =
      (link_name_change idx entry dest s).1 := rfl

theorem phase1_exec : ∀ (ns : List Str) (idx : Nat) (s : NetState),
    execCmds s (phase1 idx ns s).2 = (phase1 idx ns s).1 := by
  intro ns
  induction ns with
  | nil => intro idx s; rfl
  | cons n rest ih =>
    intro idx s
    show execCmds s ((link_name_change idx n none s).2 ++
        (phase1 (idx + 1) rest (link_name_change idx n none s).1).2) = _
    rw [execCmds_append, link_name_change_exec]
    exact ih (idx + 1) _

theorem assign_exec (interface : Iface) : ∀ (cfgs : Cfgs) (s : NetState)
    (n : Nat) (s2 : NetState) (cs : List Cmd),
    assign_interface interface cfgs s = .ok (n, s2, cs) → execCmds s cs = s2 := by
  intro cfgs
  induction cfgs with
  | nil =>
    intro s n s2 cs h
    unfold assign_interface at h
    obtain ⟨rfl, rfl, rfl⟩ : 0 = n ∧ s = s2 ∧ ([] : List Cmd) = cs := by
      have := Except.ok.inj h
      exact ⟨congrArg Prod.fst this, congrArg (fun t => t.2.1) this,
        congrArg (fun t => t.2.2) this⟩
    rfl
  | cons p rest ih =>
    obtain ⟨path, cfg⟩ := p
    intro s n s2 cs h
    cases hget : dictGet cfg "HWADDR".data with
    | none =>
      rw [assign_cons_hwaddr_none interface path cfg rest s hget] at h
      exact absurd h (by simp)
    | some hw =>
      by_cases hmatch : pyIn (pyStripChar '"' hw) interface.mac = true
      · cases hdev : dictGet cfg "DEVICE".data with
        | some d =>
          rw [assign_cons_device interface path cfg rest s hw d hget hmatch hdev] at h
          cases hrec : assign_interface interface rest
              (link_name_change 0 interface.name
                (some (pyStripChar '"' (pyLower d))) s).1 with
          | error e => rw [hrec] at h; exact absurd h (by simp)
          | ok t =>
            obtain ⟨n1, s1, cs1⟩ := t
            rw [hrec] at h
            obtain ⟨rfl, rfl, rfl⟩ : n1 + 1 = n ∧ s1 = s2 ∧
                (link_name_change 0 interface.name
                  (some (pyStripChar '"' (pyLower d))) s).2 ++ cs1 = cs := by
              have := Except.ok.inj h
              exact ⟨congrArg Prod.fst this, congrArg (fun t => t.2.1) this,
                congrArg (fun t => t.2.2) this⟩
            rw [execCmds_append, link_name_change_exec]
            exact ih _ _ _ _ hrec
        | none =>
          cases hname : dictGet cfg "NAME".data with
          | some nm =>
            rw [assign_cons_name interface path cfg rest s hw nm hget hmatch hdev hname] at h
            cases hrec : assign_interface interface rest
                (link_name_change 0 interface.name
                  (some (pyStripChar '"' (pyLower nm))) s).1 with
            | error e => rw [hrec] at h; exact absurd h (by simp)
            | ok t =>
              obtain ⟨n1, s1, cs1⟩ := t
              rw [hrec] at h
              obtain ⟨rfl, rfl, rfl⟩ : n1 + 1 = n ∧ s1 = s2 ∧
                  (link_name_change 0 interface.name
                    (some (pyStripChar '"' (pyLower nm))) s).2 ++ cs1 = cs := by
                have := Except.ok.inj h
                exact ⟨congrArg Prod.fst this, congrArg (fun t => t.2.1) this,
                  congrArg (fun t => t.2.2) this⟩
              rw [execCmds_append, link_name_change_exec]
              exact ih _ _ _ _ hrec
          | none =>
            rw [assign_cons_inert interface path cfg rest s hw hget hmatch hdev hname] at h
            exact ih _ _ _ _ h
      · have hmatch' : pyIn (pyStripChar '"' hw) interface.mac = false := by
          cases hh : pyIn (pyStripChar '"' hw) interface.mac
          · rfl
          · exact absurd hh hmatch
        rw [assign_cons_nomatch interface path cfg rest s hw hget hmatch'] at h
        exact ih _ _ _ _ h

theorem phase2_exec : ∀ (itfs : List Iface) (cfgs : Cfgs) (s : NetState)
    (r : Option Nat × NetState × List Cmd),
    phase2 itfs cfgs s = .ok r → execCmds s r.2.2 = r.2.1 := by
  intro itfs
  induction itfs with
  | nil =>
    intro cfgs s r h
    unfold phase2 at h
    rw [← Except.ok.inj h]
    rfl
  | cons interface rest ih =>
    intro cfgs s r h
    unfold phase2 at h
    cases hass : assign_interface interface cfgs s with
    | error e => simp only [hass] at h; exact Except.noConfusion h
    | ok t =>
      obtain ⟨n, s1, cs⟩ := t
      simp only [hass] at h
      cases hrec : phase2 rest cfgs s1 with
      | error e => simp only [hrec] at h; exact Except.noConfusion h
      | ok t2 =>
        obtain ⟨last, s2, cs2⟩ := t2
        simp only [hrec] at h
        rw [← Except.ok.inj h]
        show execCmds s (cs ++ cs2) = s2
        rw [execCmds_append, assign_exec interface cfgs s n s1 cs hass]
        exact ih cfgs s1 (last, s2, cs2) hrec

theorem phase3go_exec (taken : List Str) : ∀ (itfs : List Iface) (idx : Nat)
    (s : NetState),
    execCmds s (phase3go taken itfs idx s).2 = (phase3go taken itfs idx s).1 := by
  intro itfs
  induction itfs with
  | nil => intro idx s; rfl
  | cons i rest ih =>
    intro idx s
    by_cases he : pyIn "eth".data i.name = true
    · rw [phase3go_cons_keep taken i rest idx s he]
      exact ih idx s
    · have he' : pyIn "eth".data i.name = false := by
        cases hh : pyIn "eth".data i.name
        · rfl
        · exact absurd hh he
      rw [phase3go_cons_put taken i rest idx s he']
      show execCmds s ([Cmd.down i.name, Cmd.rename i.name _, Cmd.up (tempName 0)] ++ _) = _
      rw [execCmds_append]
      show execCmds (setLinkName s i.name _) _ = _
      exact ih _ _

theorem mainRest_exec (dir : List (Str × Option Str)) (s1 : NetState)
    (r : NetState × List Cmd) (h : mainRest dir s1 = .ok r) :
    execCmds s1 r.2 = r.1 := by
  unfold mainRest at h
  cases hcfg : get_config dir with
  | error e => simp only [hcfg] at h; exact Except.noConfusion h
  | ok configs =>
    simp only [hcfg] at h
    cases hp2 : phase2 (get_interface_dict s1) configs s1 with
    | error e => simp only [hp2] at h; exact Except.noConfusion h
    | ok t =>
      obtain ⟨succ, s2, tr2⟩ := t
      cases succ with
      | none => simp only [hp2] at h; exact Except.noConfusion h
      | some success =>
        simp only [hp2] at h
        have hex2 : execCmds s1 tr2 = s2 :=
          phase2_exec _ configs s1 (some success, s2, tr2) hp2
        by_cases hun : ((get_interface_dict s1).length : Int) - (success : Int) = 0
        · rw [if_pos hun] at h
          rw [← Except.ok.inj h]
          exact hex2
        · rw [if_neg hun] at h
          rw [← Except.ok.inj h]
          show execCmds s1 (tr2 ++ _) = _
          rw [execCmds_append, hex2]
          exact phase3go_exec _ _ _ _

theorem main_exec (dir : List (Str × Option Str)) (s0 : NetState)
    (r : NetState × List Cmd) (h : main dir s0 = .ok r) :
    execCmds s0 r.2 = r.1 := by
  unfold main at h
  cases hrest : mainRest dir (phase1 0 (names (get_interface_dict s0)) s0).1 with
  | error e => simp only [hrest] at h; exact Except.noConfusion h
  | ok r2 =>
    simp only [hrest] at h
    rw [← Except.ok.inj h]
    show execCmds s0 ((phase1 0 (names (get_interface_dict s0)) s0).2 ++ r2.2) = r2.1
    rw [execCmds_append, phase1_exec]
    exact mainRest_exec dir _ r2 hrest

/-! ### C3 -/

/-- C3 counterexample: the claim states that no phase-2 rename ever
assigns a name already held by another interface.  With two records that
share the desired name `eth0` and match the two interfaces, the full run
issues a phase-2 rename targeting `eth0` while another interface already
holds `eth0` (the rename fails at the facility, which is the only reason
names stay distinct). -/
theorem C3_counterexample :
    (main
        [("ifcfg-eth0".data, some "HWADDR=aa\nDEVICE=eth0".data),
          ("ifcfg-eth1".data, some "HWADDR=bb\nDEVICE=eth0".data)]
        [Iface.mk "a".data "AA".data, Iface.mk "b".data "BB".data]).map
      (fun r => anyCollision
        [Iface.mk "a".data "AA".data, Iface.mk "b".data "BB".data] r.2) =
      .ok true :=
  rfl

/-- C3 amended: starting from pairwise distinct names (the kernel
invariant), every state reached while replaying the command trace of a
successful run has pairwise distinct names, and the final state is the
replay of the full trace — renames whose destination is already held by
another interface fail at the link facility and change nothing, so
uniqueness holds at every instant of phases 2 and 3 even though the
program may issue such colliding rename commands (two records sharing a
desired name). -/
theorem C3_names_always_distinct (dir : List (Str × Option Str)) (s0 : NetState)
    (r : NetState × List Cmd) (h1 : (names s0).Nodup)
    (h2 : main dir s0 = .ok r) :
    r.1 = execCmds s0 r.2 ∧
      ∀ pre post : List Cmd, r.2 = pre ++ post →
        (names (execCmds s0 pre)).Nodup :=
  ⟨(main_exec dir s0 r h2).symm,
    fun pre _ _ => nodup_execCmds s0 pre h1⟩

/-- C3 witness: the amended theorem applied to a one-interface run with
an empty catalog. -/
theorem C3_names_always_distinct_w :
    (names [Iface.mk "a".data "AA".data]).Nodup ∧
    main [] [Iface.mk "a".data "AA".data] =
      .ok ([Iface.mk "eth0".data "AA".data],
        [Cmd.down "a".data, Cmd.rename "a".data "temp0".data,
          Cmd.up "temp0".data, Cmd.down "temp0".data,
          Cmd.rename "temp0".data "eth0".data, Cmd.up "temp0".data]) ∧
    (([Iface.mk "eth0".data "AA".data],
        [Cmd.down "a".data, Cmd.rename "a".data "temp0".data,
          Cmd.up "temp0".data, Cmd.down "temp0".data,
          Cmd.rename "temp0".data "eth0".data, Cmd.up "temp0".data]) :
        NetState × List Cmd).1 =
      execCmds [Iface.mk "a".data "AA".data]
        ([Iface.mk "eth0".data "AA".data],
          [Cmd.down "a".data, Cmd.rename "a".data "temp0".data,
            Cmd.up "temp0".data, Cmd.down "temp0".data,
            Cmd.rename "temp0".data "eth0".data, Cmd.up "temp0".data]).2 ∧
      ∀ pre post : List Cmd,
        ([Cmd.down "a".data, Cmd.rename "a".data "temp0".data,
          Cmd.up "temp0".data, Cmd.down "temp0".data,
          Cmd.rename "temp0".data "eth0".data, Cmd.up "temp0".data]) = pre ++ post →
        (names (execCmds [Iface.mk "a".data "AA".data] pre)).Nodup :=
  ⟨by decide, rfl,
    C3_names_always_distinct [] [Iface.mk "a".data "AA".data] _ (by decide) rfl⟩

/-! ### The enumeration dict is the identity on duplicate-free states -/

theorem names_append (a b : NetState) : names (a ++ b) = names a ++ names b :=
  List.map_append _ a b

theorem get_interface_dict_go : ∀ (s acc : NetState),
    (names (acc ++ s)).Nodup →
    s.foldl
      (fun acc i =>
        if acc.any (fun j => j.name == i.name) then
          acc.map (fun j => if j.name == i.name then i else j)
        else acc ++ [i])
      acc = acc ++ s := by
  intro s
  induction s with
  | nil => intro acc _; simp
  | cons i rest ih =>
    intro acc h
    have hnotin : i.name ∉ names acc := by
      have h' : (names acc ++ names (i :: rest)).Nodup := by
        rwa [names_append] at h
      rcases List.nodup_append.mp h' with ⟨_, _, hdisj⟩
      intro hmem
      exact List.disjoint_left.mp hdisj hmem (List.mem_cons_self _ _)
    have hguard : acc.any (fun j => j.name == i.name) = false := by
      rw [List.any_eq_false]
      intro x hx
      simp only [beq_iff_eq]
      intro hq
      exact hnotin (hq ▸ List.mem_map_of_mem Iface.name hx)
    rw [List.foldl_cons, hguard]
    have hnd2 : (names ((acc ++ [i]) ++ rest)).Nodup := by
      rw [List.append_assoc, List.singleton_append]
      exact h
    rw [show (if (false : Bool) then acc.map (fun j => if j.name == i.name then i else j)
        else acc ++ [i]) = acc ++ [i] from rfl]
    rw [ih (acc ++ [i]) hnd2, List.append_assoc, List.singleton_append]

theorem get_interface_dict_eq_self (s : NetState) (h : (names s).Nodup) :
    get_interface_dict s = s := by
  have := get_interface_dict_go s [] (by simpa using h)
  simpa [get_interface_dict] using this

/-! ### Properties of the canonical all-temp state -/

theorem macs_canonFrom : ∀ (s : NetState) (idx : Nat),
    macs (canonFrom idx s) = macs s := by
  intro s
  induction s with
  | nil => intro idx; rfl
  | cons i rest ih => intro idx; simp [canonFrom, macs] at ih ⊢; exact ih (idx + 1)

theorem canonFrom_congr_macs : ∀ (s s' : NetState) (idx : Nat),
    macs s = macs s' → canonFrom idx s = canonFrom idx s' := by
  intro s
  induction s with
  | nil =>
    intro s' idx h
    cases s' with
    | nil => rfl
    | cons j rest' => exact absurd h (by simp [macs])
  | cons i rest ih =>
    intro s' idx h
    cases s' with
    | nil => exact absurd h (by simp [macs])
    | cons j rest' =>
      have h1 : i.mac = j.mac ∧ macs rest = macs rest' := by
        simpa [macs] using h
      simp only [canonFrom]
      rw [ih rest' (idx + 1) h1.2]
      have : ({ i with name := tempName idx } : Iface) =
          { j with name := tempName idx } := by
        cases i
        cases j
        cases h1.1
        rfl
      rw [this]

theorem mem_names_canonFrom : ∀ (s : NetState) (idx : Nat) (x : Str),
    x ∈ names (canonFrom idx s) → ∃ j, idx ≤ j ∧ x = tempName j := by
  intro s
  induction s with
  | nil => intro idx x h; cases h
  | cons i rest ih =>
    intro idx x h
    rcases List.mem_cons.mp h with h1 | h1
    · exact ⟨idx, Nat.le_refl idx, h1⟩
    · obtain ⟨j, hj1, hj2⟩ := ih (idx + 1) x h1
      exact ⟨j, by omega, hj2⟩

theorem nodup_names_canonFrom : ∀ (s : NetState) (idx : Nat),
    (names (canonFrom idx s)).Nodup := by
  intro s
  induction s with
  | nil => intro idx; exact List.nodup_nil
  | cons i rest ih =>
    intro idx
    rw [show names (canonFrom idx (i :: rest)) =
      tempName idx :: names (canonFrom (idx + 1) rest) from rfl]
    rw [List.nodup_cons]
    refine ⟨?_, ih (idx + 1)⟩
    intro hmem
    obtain ⟨j, hj1, hj2⟩ := mem_names_canonFrom rest (idx + 1) _ hmem
    have := tempName_injective hj2
    omega

theorem canonFrom_tempCompat : ∀ (s : NetState) (idx : Nat),
    TempCompat idx (canonFrom idx s) := by
  intro s
  induction s with
  | nil => intro idx; trivial
  | cons i rest ih =>
    intro idx
    exact ⟨fun j h => (tempName_injective h).symm, ih (idx + 1)⟩

theorem tempCompat_of_no_temp : ∀ (s : NetState) (idx : Nat),
    (∀ i ∈ s, ∀ j, i.name ≠ tempName j) → TempCompat idx s := by
  intro s
  induction s with
  | nil => intro idx _; trivial
  | cons i rest ih =>
    intro idx h
    refine ⟨fun j hj => absurd hj (h i (List.mem_cons_self _ _) j), ?_⟩
    exact ih (idx + 1) (fun x hx => h x (List.mem_cons_of_mem i hx))

theorem tempCompat_mem : ∀ (s : NetState) (idx : Nat), TempCompat idx s →
    ∀ x ∈ s, ∀ j, x.name = tempName j → idx ≤ j := by
  intro s
  induction s with
  | nil => intro idx _ x hx; cases hx
  | cons i rest ih =>
    intro idx hc x hx j hj
    rcases List.mem_cons.mp hx with rfl | hx'
    · exact Nat.le_of_eq (hc.1 j hj).symm
    · have := ih (idx + 1) hc.2 x hx' j hj
      omega

/-! ### Where a name can come from: the start state or a rename target -/

theorem forall₂_comp {α β γ : Type} {P : α → β → Prop} {Q : β → γ → Prop} :
    ∀ {l1 : List α} {l2 : List β} {l3 : List γ},
    List.Forall₂ P l1 l2 → List.Forall₂ Q l2 l3 →
    List.Forall₂ (fun a c => ∃ b, P a b ∧ Q b c) l1 l3 := by
  intro l1 l2 l3 h1
  induction h1 generalizing l3 with
  | nil =>
    intro h2
    cases h2
    exact List.Forall₂.nil
  | cons hab h1' ih =>
    intro h2
    cases h2 with
    | cons hbc h2' => exact List.Forall₂.cons ⟨_, hab, hbc⟩ (ih h2')

theorem renameTargets_cons (c : Cmd) (cs : List Cmd) :
    renameTargets (c :: cs) = renameTargets [c] ++ renameTargets cs := by
  cases c <;> simp [renameTargets]

theorem execCmd_origin (s : NetState) (c : Cmd) :
    List.Forall₂
      (fun a b : Iface => b.name = a.name ∨ b.name ∈ renameTargets [c])
      s (execCmd s c) := by
  cases c with
  | down d => exact List.forall₂_same.mpr (fun x _ => Or.inl rfl)
  | up d => exact List.forall₂_same.mpr (fun x _ => Or.inl rfl)
  | rename o t =>
    show List.Forall₂ _ s (setLinkName s o t)
    unfold setLinkName
    split
    · exact List.forall₂_same.mpr (fun x _ => Or.inl rfl)
    · rw [List.forall₂_map_right_iff]
      apply List.forall₂_same.mpr
      intro x _
      by_cases hx : x.name = o
      · right
        simp [hx, renameTargets]
      · left
        simp [hx]

theorem execCmds_origin : ∀ (cmds : List Cmd) (s : NetState),
    List.Forall₂
      (fun a b : Iface => b.name = a.name ∨ b.name ∈ renameTargets cmds)
      s (execCmds s cmds) := by
  intro cmds
  induction cmds with
  | nil => intro s; exact List.forall₂_same.mpr (fun x _ => Or.inl rfl)
  | cons c cs ih =>
    intro s
    have h3 := forall₂_comp (execCmd_origin s c) (ih (execCmd s c))
    apply h3.imp
    intro a b ⟨m, hm1, hm2⟩
    rcases hm2 with h | h
    · rcases hm1 with h' | h'
      · exact Or.inl (h.trans h')
      · exact Or.inr (by rw [renameTargets_cons]; exact List.mem_append_left _ (h ▸ h'))
    · exact Or.inr (by rw [renameTargets_cons]; exact List.mem_append_right _ h)

theorem tempCompat_transport : ∀ {C s1 : NetState} {T : List Str} (idx : Nat),
    List.Forall₂ (fun a b : Iface => b.name = a.name ∨ b.name ∈ T) C s1 →
    TempCompat idx C → (∀ t ∈ T, ∀ j, t ≠ tempName j) → TempCompat idx s1 := by
  intro C s1 T idx hf
  induction hf generalizing idx with
  | nil => intro _ _; trivial
  | cons hab hf' ih =>
    intro hc hT
    refine ⟨?_, ih (idx + 1) hc.2 hT⟩
    intro j hj
    rcases hab with h | h
    · exact hc.1 j (h ▸ hj)
    · exact absurd hj (hT _ h j)

/-! ### Phase 1 canonicalizes a temp-compatible state -/

/-- Renaming the head of the unprocessed suffix to its positional temp
name succeeds and touches only that interface. -/
theorem setLinkName_phase1_step (A : NetState) (b : Iface) (B2 : NetState)
    (idx : Nat)
    (hA : names A = (List.range idx).map tempName)
    (hc : TempCompat idx (b :: B2))
    (hnd : (names (A ++ b :: B2)).Nodup) :
    setLinkName (A ++ b :: B2) b.name (tempName idx) =
      A ++ { b with name := tempName idx } :: B2 := by
  have hAmem : ∀ x ∈ A, ∃ k, k < idx ∧ x.name = tempName k := by
    intro x hx
    have : x.name ∈ names A := List.mem_map_of_mem Iface.name hx
    rw [hA] at this
    obtain ⟨k, hk, hk2⟩ := List.mem_map.mp this
    exact ⟨k, List.mem_range.mp hk, hk2.symm⟩
  have hB2 : ∀ x ∈ B2, x.name ≠ b.name := by
    intro x hx hxb
    have h' : (names A ++ names (b :: B2)).Nodup := by rwa [names_append] at hnd
    have h2 : (names (b :: B2)).Nodup := (List.nodup_append.mp h').2.1
    have h3 : b.name ∉ names B2 := (List.nodup_cons.mp h2).1
    exact h3 (hxb ▸ List.mem_map_of_mem Iface.name hx)
  have hguard : (A ++ b :: B2).any
      (fun i => i.name == tempName idx && i.name != b.name) = false := by
    rw [List.any_eq_false]
    intro x hx
    simp only [Bool.and_eq_true, beq_iff_eq, bne_iff_ne, not_and]
    intro h1
    rcases List.mem_append.mp hx with hxA | hxB
    · obtain ⟨k, hk, hk2⟩ := hAmem x hxA
      have := tempName_injective (hk2.symm.trans h1)
      omega
    · rcases List.mem_cons.mp hxB with rfl | hxB2
      · intro hne; exact hne rfl
      · have := tempCompat_mem B2 (idx + 1) hc.2 x hxB2 idx h1
        omega
  unfold setLinkName
  rw [hguard]
  rw [show (if (false : Bool) = true then (A ++ b :: B2)
      else (A ++ b :: B2).map (fun i =>
        if i.name == b.name then { i with name := tempName idx } else i)) =
      (A ++ b :: B2).map (fun i =>
        if i.name == b.name then { i with name := tempName idx } else i) from rfl]
  rw [List.map_append]
  have hmapA : A.map (fun i =>
      if i.name == b.name then { i with name := tempName idx } else i) = A := by
    rw [show A.map (fun i =>
        if i.name == b.name then { i with name := tempName idx } else i) =
      A.map id from ?_, List.map_id]
    apply List.map_congr_left
    intro x hx
    obtain ⟨k, hk, hk2⟩ := hAmem x hx
    have hxb : ¬(x.name = b.name) := by
      intro hxb
      have hbk : b.name = tempName k := hxb ▸ hk2
      have := hc.1 k hbk
      omega
    simp [hxb]
  have hmapcons : (b :: B2).map (fun i =>
      if i.name == b.name then { i with name := tempName idx } else i) =
      { b with name := tempName idx } :: B2 := by
    rw [List.map_cons]
    have hb : (if b.name == b.name then { b with name := tempName idx } else b) =
        { b with name := tempName idx } := by simp
    rw [hb]
    have hB2map : B2.map (fun i =>
        if i.name == b.name then { i with name := tempName idx } else i) = B2 := by
      rw [show B2.map (fun i =>
          if i.name == b.name then { i with name := tempName idx } else i) =
        B2.map id from ?_, List.map_id]
      apply List.map_congr_left
      intro x hx
      simp [hB2 x hx]
    rw [hB2map]
  rw [hmapA, hmapcons]

theorem phase1_go : ∀ (B A : NetState) (idx : Nat),
    A.length = idx →
    names A = (List.range idx).map tempName →
    TempCompat idx B →
    (names (A ++ B)).Nodup →
    (phase1 idx (names B) (A ++ B)).1 = A ++ canonFrom idx B := by
  intro B
  induction B with
  | nil => intro A idx _ _ _ _; simp [phase1, canonFrom, names]
  | cons b B2 ih =>
    intro A idx hlen hA hc hnd
    have hunfold : (phase1 idx (names (b :: B2)) (A ++ b :: B2)).1 =
        (phase1 (idx + 1) (names B2)
          (setLinkName (A ++ b :: B2) b.name (tempName idx))).1 := rfl
    rw [hunfold, setLinkName_phase1_step A b B2 idx hA hc hnd]
    have hassoc : A ++ { b with name := tempName idx } :: B2 =
        (A ++ [{ b with name := tempName idx }]) ++ B2 := by
      rw [List.append_assoc, List.singleton_append]
    have hnd2 : (names ((A ++ [{ b with name := tempName idx }]) ++ B2)).Nodup := by
      rw [← hassoc, ← setLinkName_phase1_step A b B2 idx hA hc hnd]
      exact nodup_setLinkName _ _ _ hnd
    rw [hassoc]
    have hih := ih (A ++ [{ b with name := tempName idx }]) (idx + 1)
      (by simp [hlen])
      (by rw [names_append, hA, List.range_succ, List.map_append]; rfl)
      hc.2 hnd2
    rw [hih]
    rw [List.append_assoc, List.singleton_append]
    rfl

/-- Phase 1 from a temp-compatible, duplicate-free state reaches the
canonical all-temp state. -/
theorem phase1_canonical (s : NetState) (h1 : TempCompat 0 s)
    (h2 : (names s).Nodup) :
    (phase1 0 (names s) s).1 = canonFrom 0 s := by
  have := phase1_go s [] 0 rfl rfl h1 (by simpa using h2)
  simpa using this

/-! ### Which rename destinations each pass can produce -/

theorem renameTargets_append (c1 c2 : List Cmd) :
    renameTargets (c1 ++ c2) = renameTargets c1 ++ renameTargets c2 := by
  simp [renameTargets, List.filterMap_append]

theorem configTargets_mono (p : Str × Cfg) (rest : Cfgs) (t : Str)
    (h : t ∈ configTargets rest) : t ∈ configTargets (p :: rest) := by
  obtain ⟨a, ha, he⟩ := List.mem_filterMap.mp h
  exact List.mem_filterMap.mpr ⟨a, List.mem_cons_of_mem p ha, he⟩

theorem assign_targets (interface : Iface) : ∀ (cfgs : Cfgs) (s : NetState)
    (n : Nat) (s2 : NetState) (cs : List Cmd),
    assign_interface interface cfgs s = .ok (n, s2, cs) →
    ∀ t ∈ renameTargets cs, t ∈ configTargets cfgs := by
  intro cfgs
  induction cfgs with
  | nil =>
    intro s n s2 cs h t ht
    unfold assign_interface at h
    have hcs : ([] : List Cmd) = cs := by
      have := Except.ok.inj h
      exact congrArg (fun t => t.2.2) this
    rw [← hcs] at ht
    cases ht
  | cons p rest ih =>
    obtain ⟨path, cfg⟩ := p
    intro s n s2 cs h t ht
    cases hget : dictGet cfg "HWADDR".data with
    | none =>
      rw [assign_cons_hwaddr_none interface path cfg rest s hget] at h
      exact absurd h (by simp)
    | some hw =>
      by_cases hmatch : pyIn (pyStripChar '"' hw) interface.mac = true
      · cases hdev : dictGet cfg "DEVICE".data with
        | some d =>
          rw [assign_cons_device interface path cfg rest s hw d hget hmatch hdev] at h
          cases hrec : assign_interface interface rest
              (link_name_change 0 interface.name
                (some (pyStripChar '"' (pyLower d))) s).1 with
          | error e => rw [hrec] at h; exact absurd h (by simp)
          | ok tr =>
            obtain ⟨n1, s1, cs1⟩ := tr
            rw [hrec] at h
            have hcs : (link_name_change 0 interface.name
                (some (pyStripChar '"' (pyLower d))) s).2 ++ cs1 = cs := by
              have := Except.ok.inj h
              exact congrArg (fun t => t.2.2) this
            rw [← hcs, renameTargets_append] at ht
            rcases List.mem_append.mp ht with h1 | h1
            · rw [show renameTargets (link_name_change 0 interface.name
                  (some (pyStripChar '"' (pyLower d))) s).2 =
                [normTarget d] from rfl] at h1
              rw [List.mem_singleton] at h1
              subst h1
              refine List.mem_filterMap.mpr ⟨(path, cfg), List.mem_cons_self _ _, ?_⟩
              simp only [recordTarget, hdev]
            · exact configTargets_mono _ rest t (ih _ _ _ _ hrec t h1)
        | none =>
          cases hname : dictGet cfg "NAME".data with
          | some nm =>
            rw [assign_cons_name interface path cfg rest s hw nm hget hmatch hdev hname] at h
            cases hrec : assign_interface interface rest
                (link_name_change 0 interface.name
                  (some (pyStripChar '"' (pyLower nm))) s).1 with
            | error e => rw [hrec] at h; exact absurd h (by simp)
            | ok tr =>
              obtain ⟨n1, s1, cs1⟩ := tr
              rw [hrec] at h
              have hcs : (link_name_change 0 interface.name
                  (some (pyStripChar '"' (pyLower nm))) s).2 ++ cs1 = cs := by
                have := Except.ok.inj h
                exact congrArg (fun t => t.2.2) this
              rw [← hcs, renameTargets_append] at ht
              rcases List.mem_append.mp ht with h1 | h1
              · rw [show renameTargets (link_name_change 0 interface.name
                    (some (pyStripChar '"' (pyLower nm))) s).2 =
                  [normTarget nm] from rfl] at h1
                rw [List.mem_singleton] at h1
                subst h1
                refine List.mem_filterMap.mpr ⟨(path, cfg), List.mem_cons_self _ _, ?_⟩
                simp only [recordTarget, hdev, hname]
              · exact configTargets_mono _ rest t (ih _ _ _ _ hrec t h1)
          | none =>
            rw [assign_cons_inert interface path cfg rest s hw hget hmatch hdev hname] at h
            exact configTargets_mono _ rest t (ih _ _ _ _ h t ht)
      · have hmatch' : pyIn (pyStripChar '"' hw) interface.mac = false := by
          cases hh : pyIn (pyStripChar '"' hw) interface.mac
          · rfl
          · exact absurd hh hmatch
        rw [assign_cons_nomatch interface path cfg rest s hw hget hmatch'] at h
        exact configTargets_mono _ rest t (ih _ _ _ _ h t ht)

theorem phase2_targets : ∀ (itfs : List Iface) (cfgs : Cfgs) (s : NetState)
    (r : Option Nat × NetState × List Cmd),
    phase2 itfs cfgs s = .ok r →
    ∀ t ∈ renameTargets r.2.2, t ∈ configTargets cfgs := by
  intro itfs
  induction itfs with
  | nil =>
    intro cfgs s r h t ht
    unfold phase2 at h
    rw [← Except.ok.inj h] at ht
    cases ht
  | cons interface rest ih =>
    intro cfgs s r h t ht
    unfold phase2 at h
    cases hass : assign_interface interface cfgs s with
    | error e => simp only [hass] at h; exact Except.noConfusion h
    | ok tr =>
      obtain ⟨n, s1, cs⟩ := tr
      simp only [hass] at h
      cases hrec : phase2 rest cfgs s1 with
      | error e => simp only [hrec] at h; exact Except.noConfusion h
      | ok tr2 =>
        obtain ⟨last, s2, cs2⟩ := tr2
        simp only [hrec] at h
        rw [← Except.ok.inj h] at ht
        rw [show ((some (last.getD n), s2, cs ++ cs2) :
            Option Nat × NetState × List Cmd).2.2 = cs ++ cs2 from rfl,
          renameTargets_append] at ht
        rcases List.mem_append.mp ht with h1 | h1
        · exact assign_targets interface cfgs s n s1 cs hass t h1
        · exact ih cfgs s1 (last, s2, cs2) hrec t h1

theorem phase3go_targets (taken : List Str) : ∀ (itfs : List Iface) (idx : Nat)
    (s : NetState) (t : Str),
    t ∈ renameTargets (phase3go taken itfs idx s).2 → ∃ j, t = ethName j := by
  intro itfs
  induction itfs with
  | nil => intro idx s t ht; cases ht
  | cons i rest ih =>
    intro idx s t ht
    by_cases he : pyIn "eth".data i.name = true
    · rw [phase3go_cons_keep taken i rest idx s he] at ht
      exact ih idx s t ht
    · have he' : pyIn "eth".data i.name = false := by
        cases hh : pyIn "eth".data i.name
        · rfl
        · exact absurd hh he
      rw [phase3go_cons_put taken i rest idx s he'] at ht
      rw [show ((phase3go taken rest (bumpIdx taken (taken.length + 1) idx + 1)
          (setLinkName s i.name (ethName (bumpIdx taken (taken.length + 1) idx)))).1,
          [Cmd.down i.name,
            Cmd.rename i.name (ethName (bumpIdx taken (taken.length + 1) idx)),
            Cmd.up (tempName 0)] ++
            (phase3go taken rest (bumpIdx taken (taken.length + 1) idx + 1)
              (setLinkName s i.name
                (ethName (bumpIdx taken (taken.length + 1) idx)))).2).2 =
          [Cmd.down i.name,
            Cmd.rename i.name (ethName (bumpIdx taken (taken.length + 1) idx)),
            Cmd.up (tempName 0)] ++
            (phase3go taken rest (bumpIdx taken (taken.length + 1) idx + 1)
              (setLinkName s i.name
                (ethName (bumpIdx taken (taken.length + 1) idx)))).2 from rfl,
        renameTargets_append] at ht
      rcases List.mem_append.mp ht with h1 | h1
      · rw [show renameTargets [Cmd.down i.name,
            Cmd.rename i.name (ethName (bumpIdx taken (taken.length + 1) idx)),
            Cmd.up (tempName 0)] =
          [ethName (bumpIdx taken (taken.length + 1) idx)] from rfl,
          List.mem_singleton] at h1
        exact ⟨_, h1⟩
      · exact ih _ _ t h1

theorem mainRest_targets (dir : List (Str × Option Str)) (s1 : NetState)
    (r : NetState × List Cmd) (h : mainRest dir s1 = .ok r) :
    ∀ t ∈ renameTargets r.2,
      (∃ cfgs, get_config dir = .ok cfgs ∧ t ∈ configTargets cfgs) ∨
        ∃ j, t = ethName j := by
  intro t ht
  unfold mainRest at h
  cases hcfg : get_config dir with
  | error e => simp only [hcfg] at h; exact Except.noConfusion h
  | ok configs =>
    simp only [hcfg] at h
    cases hp2 : phase2 (get_interface_dict s1) configs s1 with
    | error e => simp only [hp2] at h; exact Except.noConfusion h
    | ok tr =>
      obtain ⟨succ, s2, tr2⟩ := tr
      cases succ with
      | none => simp only [hp2] at h; exact Except.noConfusion h
      | some success =>
        simp only [hp2] at h
        by_cases hun : ((get_interface_dict s1).length : Int) - (success : Int) = 0
        · rw [if_pos hun] at h
          rw [← Except.ok.inj h] at ht
          exact Or.inl ⟨configs, rfl,
            phase2_targets _ configs s1 (some success, s2, tr2) hp2 t ht⟩
        · rw [if_neg hun] at h
          rw [← Except.ok.inj h] at ht
          rw [show ((phase3 (names (get_interface_dict s2)) (get_interface_dict s2) s2).1,
              tr2 ++ (phase3 (names (get_interface_dict s2))
                (get_interface_dict s2) s2).2).2 =
            tr2 ++ (phase3 (names (get_interface_dict s2))
              (get_interface_dict s2) s2).2 from rfl,
            renameTargets_append] at ht
          rcases List.mem_append.mp ht with h1 | h1
          · exact Or.inl ⟨configs, rfl,
              phase2_targets _ configs s1 (some success, s2, tr2) hp2 t h1⟩
          · exact Or.inr (phase3go_targets _ _ _ _ t h1)

/-! ### C8 -/

/-- C8 counterexample: the claim states that a second run over the first
run's final names reproduces the same final name-to-MAC assignment for
every interface set.  With prior naming state inside the temp namespace
(an interface booted as `temp0` while another, earlier in enumeration
order, is named `my_eth`), phase 1 of the first run cannot move the
first interface into the temp namespace (`temp0` is taken), its name
`my_eth` survives (it contains `eth`, so phase 3 skips it), and the
second run renames it to `eth0`: the two assignments differ even as
sets. -/
theorem C8_counterexample :
    (main [] [Iface.mk "my_eth".data "AA".data,
        Iface.mk "temp0".data "BB".data]).map (fun r => r.1) =
      .ok [Iface.mk "my_eth".data "AA".data, Iface.mk "eth0".data "BB".data] ∧
    ((main [] [Iface.mk "my_eth".data "AA".data,
        Iface.mk "temp0".data "BB".data]).bind
      (fun r => main [] r.1)).map (fun r => r.1) =
      .ok [Iface.mk "eth0".data "AA".data, Iface.mk "eth1".data "BB".data] ∧
    ¬ List.Perm
        [Iface.mk "my_eth".data "AA".data, Iface.mk "eth0".data "BB".data]
        [Iface.mk "eth0".data "AA".data, Iface.mk "eth1".data "BB".data] :=
  ⟨rfl, rfl, by decide⟩

/-- C8 amended: the pipeline is idempotent provided the initial names and
the catalog rename destinations stay out of the temp namespace: if the
initial names are pairwise distinct, no initial name is a `temp<j>`
name, and no rename destination derived from the catalog is a `temp<j>`
name, then a second run over the final state of a successful first run
succeeds and returns exactly the same name-to-MAC assignment. -/
theorem C8_idempotent_outside_temp_namespace
    (dir : List (Str × Option Str)) (s0 : NetState) (r : NetState × List Cmd)
    (hnd : (names s0).Nodup)
    (hnt : ∀ i ∈ s0, ∀ j, i.name ≠ tempName j)
    (hct : ∀ cfgs, get_config dir = .ok cfgs →
      ∀ t ∈ configTargets cfgs, ∀ j, t ≠ tempName j)
    (hmain : main dir s0 = .ok r) :
    ∃ tr2, main dir r.1 = .ok (r.1, tr2) := by
  have hgid0 : get_interface_dict s0 = s0 := get_interface_dict_eq_self s0 hnd
  have hph1 : (phase1 0 (names s0) s0).1 = canonFrom 0 s0 :=
    phase1_canonical s0 (tempCompat_of_no_temp s0 0 hnt) hnd
  simp only [main] at hmain
  rw [hgid0, hph1] at hmain
  cases hrest : mainRest dir (canonFrom 0 s0) with
  | error e =>
    rw [hrest] at hmain
    exact absurd hmain (by simp)
  | ok r2 =>
    rw [hrest] at hmain
    have hr : r = (r2.1, (phase1 0 (names s0) s0).2 ++ r2.2) :=
      (Except.ok.inj hmain).symm
    have hndC : (names (canonFrom 0 s0)).Nodup := nodup_names_canonFrom s0 0
    have hexec : execCmds (canonFrom 0 s0) r2.2 = r2.1 := mainRest_exec dir _ r2 hrest
    have hndS1 : (names r2.1).Nodup := by
      rw [← hexec]
      exact nodup_execCmds _ _ hndC
    have hmacs : macs r2.1 = macs s0 := by
      rw [← hexec, macs_execCmds, macs_canonFrom]
    have hT : ∀ t ∈ renameTargets r2.2, ∀ j, t ≠ tempName j := by
      intro t ht j
      rcases mainRest_targets dir _ r2 hrest t ht with ⟨cfgs, hc1, hc2⟩ | ⟨k, rfl⟩
      · exact hct cfgs hc1 t hc2 j
      · exact ethName_ne_tempName k j
    have horigin := execCmds_origin r2.2 (canonFrom 0 s0)
    rw [hexec] at horigin
    have hcompat : TempCompat 0 r2.1 :=
      tempCompat_transport 0 horigin (canonFrom_tempCompat s0 0) hT
    have hgid1 : get_interface_dict r2.1 = r2.1 :=
      get_interface_dict_eq_self _ hndS1
    have hph1' : (phase1 0 (names r2.1) r2.1).1 = canonFrom 0 r2.1 :=
      phase1_canonical _ hcompat hndS1
    have hcanon : canonFrom 0 r2.1 = canonFrom 0 s0 :=
      canonFrom_congr_macs _ _ 0 hmacs
    refine ⟨(phase1 0 (names r2.1) r2.1).2 ++ r2.2, ?_⟩
    have hfst : r.1 = r2.1 := by rw [hr]
    rw [hfst]
    show (match mainRest dir
        (phase1 0 (names (get_interface_dict r2.1)) r2.1).1 with
      | .ok rr => Except.ok (rr.1,
          (phase1 0 (names (get_interface_dict r2.1)) r2.1).2 ++ rr.2)
      | .error e => Except.error e) =
      Except.ok (r2.1, (phase1 0 (names r2.1) r2.1).2 ++ r2.2)
    rw [hgid1, hph1', hcanon, hrest]

/-- C8 witness: the amended theorem applied to a one-interface run with
an empty catalog. -/
theorem C8_idempotent_outside_temp_namespace_w :
    (names [Iface.mk "a".data "AA".data]).Nodup ∧
    (∀ i ∈ ([Iface.mk "a".data "AA".data] : NetState), ∀ j,
      i.name ≠ tempName j) ∧
    (∀ cfgs, get_config [] = .ok cfgs →
      ∀ t ∈ configTargets cfgs, ∀ j, t ≠ tempName j) ∧
    main [] [Iface.mk "a".data "AA".data] =
      .ok ([Iface.mk "eth0".data "AA".data],
        [Cmd.down "a".data, Cmd.rename "a".data "temp0".data,
          Cmd.up "temp0".data, Cmd.down "temp0".data,
          Cmd.rename "temp0".data "eth0".data, Cmd.up "temp0".data]) ∧
    ∃ tr2, main []
        (([Iface.mk "eth0".data "AA".data],
          [Cmd.down "a".data, Cmd.rename "a".data "temp0".data,
            Cmd.up "temp0".data, Cmd.down "temp0".data,
            Cmd.rename "temp0".data "eth0".data, Cmd.up "temp0".data]) :
          NetState × List Cmd).1 =
      .ok ((([Iface.mk "eth0".data "AA".data],
          [Cmd.down "a".data, Cmd.rename "a".data "temp0".data,
            Cmd.up "temp0".data, Cmd.down "temp0".data,
            Cmd.rename "temp0".data "eth0".data, Cmd.up "temp0".data]) :
          NetState × List Cmd).1, tr2) := by
  refine ⟨by decide, ?_, ?_, rfl, ?_⟩
  · intro i hi j h
    rw [List.mem_singleton] at hi
    subst hi
    rw [show tempName j = 't' :: 'e' :: 'm' :: 'p' :: natChars j from rfl] at h
    injection h with h1 h2
    exact absurd h1 (by decide)
  · intro cfgs hc t ht j
    rw [show get_config [] = Except.ok [] from rfl] at hc
    obtain rfl := Except.ok.inj hc
    exact absurd ht (by simp [configTargets])
  · exact C8_idempotent_outside_temp_namespace [] [Iface.mk "a".data "AA".data]
      ([Iface.mk "eth0".data "AA".data],
        [Cmd.down "a".data, Cmd.rename "a".data "temp0".data,
          Cmd.up "temp0".data, Cmd.down "temp0".data,
          Cmd.rename "temp0".data "eth0".data, Cmd.up "temp0".data])
      (by decide)
      (by
        intro i hi j h
        rw [List.mem_singleton] at hi
        subst hi
        rw [show tempName j = 't' :: 'e' :: 'm' :: 'p' :: natChars j from rfl] at h
        injection h with h1 h2
        exact absurd h1 (by decide))
      (by
        intro cfgs hc t ht j
        rw [show get_config [] = Except.ok [] from rfl] at hc
        obtain rfl := Except.ok.inj hc
        exact absurd ht (by simp [configTargets]))
      rfl

end SPE
